import Mathlib

/-!
Verification of the Glyph miner core against its specification.

Bytes are modelled as `List Nat` (each entry a byte value 0..255), hex strings
as the byte lists they denote (two lowercase hex characters per byte, so string
equality coincides with byte-list equality), JavaScript `bigint` values as
`Int` with `Int.tdiv` for the truncating `bigint` division and `Int.fdiv` for
the flooring arithmetic right shift, and `number` values as `Nat`/`Int` as
appropriate.  All definitions are executable and structurally recursive so
concrete runs evaluate inside the kernel.
-/

namespace GlyphMiner

/-! ### SHA-256 over byte lists (model of noble-hashes sha256) -/

/-- Reduce modulo 2^32, the u32 wraparound used throughout SHA-256. -/
def u32 (n : Nat) : Nat := n % 4294967296

/-- Rotate a 32-bit word right by `n` bits. -/
def rotr (n x : Nat) : Nat := u32 ((x >>> n) ||| (x <<< (32 - n)))

/-- SHA-256 small sigma 0. -/
def ssig0 (x : Nat) : Nat := (rotr 7 x) ^^^ (rotr 18 x) ^^^ (x >>> 3)

/-- SHA-256 small sigma 1. -/
def ssig1 (x : Nat) : Nat := (rotr 17 x) ^^^ (rotr 19 x) ^^^ (x >>> 10)

/-- SHA-256 big sigma 0. -/
def bsig0 (x : Nat) : Nat := (rotr 2 x) ^^^ (rotr 13 x) ^^^ (rotr 22 x)

/-- SHA-256 big sigma 1. -/
def bsig1 (x : Nat) : Nat := (rotr 6 x) ^^^ (rotr 11 x) ^^^ (rotr 25 x)

/-- The eight 32-bit words of a SHA-256 chaining state. -/
structure Sha256State where
  a : Nat
  b : Nat
  c : Nat
  d : Nat
  e : Nat
  f : Nat
  g : Nat
  h : Nat
deriving DecidableEq

/-- SHA-256 initial chaining state (FIPS 180-4, written in decimal). -/
def sha256Init : Sha256State :=
  ⟨1779033703, 3144134277, 1013904242, 2773480762,
   1359893119, 2600822924, 528734635, 1541459225⟩

/-- The 64 SHA-256 round constants (FIPS 180-4, written in decimal). -/
def sha256K : List Nat := [
  1116352408, 1899447441, 3049323471, 3921009573, 961987163, 1508970993,
  2453635748, 2870763221, 3624381080, 310598401, 607225278, 1426881987,
  1925078388, 2162078206, 2614888103, 3248222580, 3835390401, 4022224774,
  264347078, 604807628, 770255983, 1249150122, 1555081692, 1996064986,
  2554220882, 2821834349, 2952996808, 3210313671, 3336571891, 3584528711,
  113926993, 338241895, 666307205, 773529912, 1294757372, 1396182291,
  1695183700, 1986661051, 2177026350, 2456956037, 2730485921, 2820302411,
  3259730800, 3345764771, 3516065817, 3600352804, 4094571909, 275423344,
  430227734, 506948616, 659060556, 883997877, 958139571, 1322822218,
  1537002063, 1747873779, 1955562222, 2024104815, 2227730452, 2361852424,
  2428436474, 2756734187, 3204031479, 3329325298]

/-- Extend the 16 message-schedule words to 64, appending one word per step. -/
def extendW : Nat → List Nat → List Nat
  | 0, w => w
  | n+1, w =>
    let len := w.length
    let nw := u32 (ssig1 (w.getD (len - 2) 0) + w.getD (len - 7) 0 +
      ssig0 (w.getD (len - 15) 0) + w.getD (len - 16) 0)
    extendW n (w ++ [nw])

/-- One SHA-256 compression round on the working variables; `kw` pairs the
round constant with the schedule word. -/
def sha256Round (st : Sha256State) (kw : Nat × Nat) : Sha256State :=
  let ch := (st.e &&& st.f) ^^^ ((st.e ^^^ 4294967295) &&& st.g)
  let maj := (st.a &&& st.b) ^^^ (st.a &&& st.c) ^^^ (st.b &&& st.c)
  let t1 := u32 (st.h + bsig1 st.e + ch + kw.1 + kw.2)
  let t2 := u32 (bsig0 st.a + maj)
  ⟨u32 (t1 + t2), st.a, st.b, st.c, u32 (st.d + t1), st.e, st.f, st.g⟩

/-- Big-endian 32-bit word starting at byte offset `i`. -/
def be32At (bs : List Nat) (i : Nat) : Nat :=
  bs.getD i 0 * 16777216 + bs.getD (i+1) 0 * 65536 + bs.getD (i+2) 0 * 256 + bs.getD (i+3) 0

/-- The 16 initial message-schedule words of one 64-byte block. -/
def blockWords (blk : List Nat) : List Nat :=
  (List.range 16).map (fun i => be32At blk (4 * i))

/-- Compress one 64-byte block into the chaining state. -/
def compressBlock (st : Sha256State) (blk : List Nat) : Sha256State :=
  let w := extendW 48 (blockWords blk)
  let fin := (sha256K.zip w).foldl sha256Round st
  ⟨u32 (st.a + fin.a), u32 (st.b + fin.b), u32 (st.c + fin.c), u32 (st.d + fin.d),
   u32 (st.e + fin.e), u32 (st.f + fin.f), u32 (st.g + fin.g), u32 (st.h + fin.h)⟩

/-- SHA-256 padding: append 0x80, zeros to 56 mod 64, then the 64-bit
big-endian bit length. -/
def padMsg (msg : List Nat) : List Nat :=
  let len := msg.length
  let zeros := (119 - len % 64) % 64
  let bitLen := len * 8
  msg ++ [0x80] ++ List.replicate zeros 0 ++
    [bitLen / 72057594037927936 % 256, bitLen / 281474976710656 % 256,
     bitLen / 1099511627776 % 256, bitLen / 4294967296 % 256,
     bitLen / 16777216 % 256, bitLen / 65536 % 256, bitLen / 256 % 256, bitLen % 256]

/-- Split a padded message into 64-byte blocks (fuel-bounded recursion). -/
def chunks64 : Nat → List Nat → List (List Nat)
  | 0, _ => []
  | _, [] => []
  | fuel+1, l => l.take 64 :: chunks64 fuel (l.drop 64)

/-- Big-endian bytes of one 32-bit word. -/
def be32Bytes (x : Nat) : List Nat :=
  [x / 16777216 % 256, x / 65536 % 256, x / 256 % 256, x % 256]

/-- SHA-256 of a byte list, as a 32-entry byte list. -/
def sha256 (msg : List Nat) : List Nat :=
  let padded := padMsg msg
  let st := (chunks64 padded.length padded).foldl compressBlock sha256Init
  be32Bytes st.a ++ be32Bytes st.b ++ be32Bytes st.c ++ be32Bytes st.d ++
  be32Bytes st.e ++ be32Bytes st.f ++ be32Bytes st.g ++ be32Bytes st.h

/-! ### Host verifier (src/miner.ts `verify`) -/

/-- Model of `Uint8Array.prototype.set`: overwrite `buf` from offset `off`
with `src` (the in-range case used by the code). -/
def setBytes (buf : List Nat) (off : Nat) (src : List Nat) : List Nat :=
  buf.take off ++ src ++ buf.drop (off + src.length)

/-- Big-endian unsigned 64-bit integer from 8 bytes
(model of `DataView.getBigUint64(0, false)`). -/
def beU64 (bs : List Nat) : Nat :=
  bs.foldl (fun acc b => acc * 256 + b) 0

/-- Model of `verify` in src/miner.ts: append the 8 nonce bytes at offset 64
of a zero-initialised buffer holding the preimage prefix, hash twice with
SHA-256, require the first four bytes to be zero and the big-endian u64 at
bytes 4..12 to be below the target. -/
def verify (target : Nat) (preimage64 : List Nat) (nonce : List Nat) : Bool :=
  let buf := setBytes (setBytes (List.replicate (preimage64.length + 8) 0) 0 preimage64) 64 nonce
  let h := sha256 (sha256 buf)
  if h.getD 0 0 ≠ 0 ∨ h.getD 1 0 ≠ 0 ∨ h.getD 2 0 ≠ 0 ∨ h.getD 3 0 ≠ 0 then
    false
  else
    decide (beU64 ((h.drop 4).take 8) < target)

/-- The LegacyV1 acceptance predicate as the specification words it: the
double-SHA-256 of the 72-byte input has four leading zero bytes and its bytes
4..12, read as a big-endian unsigned 64-bit integer, are below the target. -/
def legacyV1Accepts (target : Nat) (input : List Nat) : Prop :=
  let h := sha256 (sha256 input)
  h.take 4 = [0, 0, 0, 0] ∧ beU64 ((h.drop 4).take 8) < target

/-! ### Preimage builder (src/pow.ts `powPreimage`, `createWork`) -/

/-- Model of `cat` in src/utils.ts: byte-array concatenation. -/
def cat (a b : List Nat) : List Nat := a ++ b

/-- The Work record consumed by the preimage builder (src/types.ts). -/
structure Work where
  txid : List Nat
  contractRef : List Nat
  inputScript : List Nat
  outputScript : List Nat
  target : Nat
deriving DecidableEq

/-- Model of `powPreimage` in src/pow.ts: concatenate
`SHA-256(txid || contractRef)` with
`SHA-256(SHA-256d(inputScript) || SHA-256d(outputScript))`. -/
def powPreimage (w : Work) : List Nat :=
  let inputCsh := sha256 (sha256 w.inputScript)
  let outputCsh := sha256 (sha256 w.outputScript)
  cat (sha256 (cat w.txid w.contractRef)) (sha256 (cat inputCsh outputCsh))

/-- Model of `createWork` in src/pow.ts at the byte level.  The location txid
is byte-reversed (`hexToBytes(swapEndianness(contract.location))` reverses the
byte order of the 32-byte txid); the contract reference is decoded from hex
unchanged; `inputScript` (the P2PKH locking bytecode of the mining address)
and `outputScript` (the mint-message script) are produced by library code and
passed here as bytes. -/
def createWork (location contractRef : List Nat) (target : Nat)
    (inputScript outputScript : List Nat) : Work :=
  ⟨location.reverse, contractRef, inputScript, outputScript, target⟩

/-! ### Difficulty adjustment (src/daa/calculators.ts)

JavaScript `bigint` division truncates toward zero, so it is modelled with
`Int.tdiv`; the arithmetic right shift `>>` on `bigint` floors, so it is
modelled with `Int.fdiv` by the corresponding power of two. -/

/-- Fixed-point precision used by the Epoch and LWMA calculators. -/
def PRECISION : Int := 1000000

/-- Parameters of the Epoch calculator, after the constructor's defaulting. -/
structure EpochParams where
  epochLength : Nat
  targetBlockTime : Nat
  maxAdjustment : Nat
deriving DecidableEq

/-- The slice of the DAA `ContractState` read by `EpochDAA`. -/
structure EpochState where
  currentDifficulty : Int
  lastBlockTime : Int
deriving DecidableEq

/-- Model of `EpochDAA.calculateNextDifficulty` in src/daa/calculators.ts. -/
def epochCalc (p : EpochParams) (st : EpochState)
    (newBlockHeight : Nat) (newBlockTime : Int) : Int :=
  if newBlockHeight % p.epochLength ≠ 0 then st.currentDifficulty
  else
    let expectedTime : Int := (p.epochLength * p.targetBlockTime : Nat)
    let actualTime : Int := newBlockTime - st.lastBlockTime
    if actualTime = 0 then st.currentDifficulty
    else
      let adjustmentScaled := Int.tdiv (expectedTime * PRECISION) actualTime
      let maxAdjustmentScaled := (p.maxAdjustment : Int) * PRECISION
      let minAdjustmentScaled := Int.tdiv PRECISION (p.maxAdjustment : Int)
      let clamped :=
        if adjustmentScaled > maxAdjustmentScaled then maxAdjustmentScaled
        else if adjustmentScaled < minAdjustmentScaled then minAdjustmentScaled
        else adjustmentScaled
      let newDifficulty := Int.tdiv (st.currentDifficulty * clamped) PRECISION
      if newDifficulty > 0 then newDifficulty else 1

/-- Clamp `x` into `[lo, hi]`. -/
def clampInt (lo hi x : Int) : Int := min hi (max lo x)

/-- The Epoch update as the claim words it, with
`actual = max(1, new_time - epoch_start_time)` and the result
`max(1, current * clamp(expected*P/actual, P/M, P*M) / P)`, where the epoch
start time is the time recorded in the DAA state.  Stated for comparison with
`epochCalc`. -/
def epochClaimNext (p : EpochParams) (st : EpochState)
    (newBlockHeight : Nat) (newBlockTime : Int) : Int :=
  if newBlockHeight % p.epochLength ≠ 0 then st.currentDifficulty
  else
    let expected : Int := (p.epochLength * p.targetBlockTime : Nat)
    let actual : Int := max 1 (newBlockTime - st.lastBlockTime)
    let adj := clampInt (Int.tdiv PRECISION (p.maxAdjustment : Int))
      ((p.maxAdjustment : Int) * PRECISION) (Int.tdiv (expected * PRECISION) actual)
    max 1 (Int.tdiv (st.currentDifficulty * adj) PRECISION)

/-- ASERT fixed-point radix, 2^16. -/
def RADIX : Int := 65536

/-- Model of `ASERTDAA.fixedPointExp` in src/daa/calculators.ts: clamp the
exponent to plus or minus four times the radix, then evaluate the cubic Taylor
polynomial in fixed point (`>>` floors, `/ 6n` truncates). -/
def fixedPointExp (exponent : Int) : Int :=
  let one := RADIX
  let maxExp := 4 * one
  let minExp := -4 * one
  let x := if exponent > maxExp then maxExp else if exponent < minExp then minExp else exponent
  let x2 := Int.fdiv (x * x) 65536
  let x3 := Int.fdiv (x2 * x) 65536
  one + x + Int.fdiv x2 2 + Int.tdiv x3 6

/-- The clamp applied by `fixedPointExp` to its argument. -/
def clampExponent (x : Int) : Int :=
  if x > 4 * RADIX then 4 * RADIX else if x < -4 * RADIX then -4 * RADIX else x

/-- The cubic fixed-point Taylor polynomial
`R + x + x^2/(2R) + x^3/(6R^2)` evaluated in the integer arithmetic of the
code: the square term is one floored division by `2R`, the cube term floors
twice by `R` (the two arithmetic shifts) and then truncates by 6. -/
def taylorExp (x : Int) : Int :=
  RADIX + x + Int.fdiv (x * x) 131072 +
    Int.tdiv (Int.fdiv (Int.fdiv (x * x) 65536 * x) 65536) 6

/-- Parameters of the LWMA calculator, after the constructor's defaulting. -/
structure LwmaParams where
  windowSize : Nat
  targetBlockTime : Int
deriving DecidableEq

/-- One clamped solve time of the LWMA window: the difference of adjacent
block times at offset `i` from `startIndex`, clamped into
`[1, 6 * targetBlockTime]` (`Math.min(Math.max(solveTime, 1), 6 * T_b)`). -/
def lwmaClamped (p : LwmaParams) (blockTimes : List Int) (startIndex i : Nat) : Int :=
  min (max (blockTimes.getD (startIndex + i + 1) 0 - blockTimes.getD (startIndex + i) 0) 1)
    (p.targetBlockTime * 6)

/-- The LWMA loop: accumulate the weighted solve-time sum and the weight sum
over window positions `0..n-1`, with linear weights `i + 1`. -/
def lwmaSums (p : LwmaParams) (blockTimes : List Int) (startIndex n : Nat) : Int × Int :=
  (List.range n).foldl
    (fun (acc : Int × Int) i =>
      (acc.1 + lwmaClamped p blockTimes startIndex i * ((i : Int) + 1), acc.2 + ((i : Int) + 1)))
    (0, 0)

/-- Model of `LWMADAA.calculateNextDifficulty` in src/daa/calculators.ts.
The state slice read is the current difficulty and the block-time history. -/
def lwmaCalc (p : LwmaParams) (currentDifficulty : Int) (blockTimes : List Int) : Int :=
  if blockTimes.length < 2 then currentDifficulty
  else
    let n := min (blockTimes.length - 1) p.windowSize
    if n < 1 then currentDifficulty
    else
      let startIndex := blockTimes.length - n - 1
      let sums := lwmaSums p blockTimes startIndex n
      if sums.2 = 0 ∨ sums.1 = 0 then currentDifficulty
      else
        let weightedAvgSolveTime := Int.tdiv sums.1 sums.2
        let adjustmentScaled := Int.tdiv (p.targetBlockTime * PRECISION) weightedAvgSolveTime
        let maxAdjustment := 3 * PRECISION
        let minAdjustment := Int.tdiv PRECISION 3
        let clampedAdjustment :=
          if adjustmentScaled > maxAdjustment then maxAdjustment
          else if adjustmentScaled < minAdjustment then minAdjustment
          else adjustmentScaled
        let newDifficulty := Int.tdiv (currentDifficulty * clampedAdjustment) PRECISION
        if newDifficulty > 0 then newDifficulty else 1

/-- The LWMA all-clamped result as the claim words it:
`current * P/(3P) = current/3`, with a minimum result of 1.  Stated for
comparison with `lwmaCalc`. -/
def lwmaClaimNext (currentDifficulty : Int) : Int :=
  max 1 (Int.tdiv currentDifficulty 3)

/-! ### Contract script encoding and parsing (src/blockchain.ts)

Scripts move through the code as lowercase hex strings; two hex characters
denote one byte, so the hex level is modelled at the byte level.  The one
place the hex alphabet itself matters is `parseBurnScript`, whose regular
expression constrains individual hex characters, i.e. nibbles. -/

/-- Little-endian base-256 value of a byte list. -/
def leNat : List Nat → Nat
  | [] => 0
  | b :: bs => b + 256 * leNat bs

/-- Little-endian magnitude bytes of `m` (most significant last, no leading
zero), fuel-bounded; call with fuel at least `m`. -/
def natLE : Nat → Nat → List Nat
  | _, 0 => []
  | 0, _ => []
  | fuel+1, m => m % 256 :: natLE fuel (m / 256)

/-- Model of libauth `bigIntToVmNumber`: minimal sign-magnitude little-endian
number encoding.  The magnitude is emitted little-endian; if the top bit of
the last byte is set a sign byte is appended, otherwise a negative sign sets
that top bit. -/
def vmNumberBytes (n : Int) : List Nat :=
  if n = 0 then []
  else
    let mag := natLE n.natAbs n.natAbs
    let lastByte := mag.getLastD 0
    if lastByte / 128 % 2 = 1 then
      mag ++ [if n < 0 then 128 else 0]
    else if n < 0 then
      mag.dropLast ++ [lastByte + 128]
    else mag

/-- Model of libauth `vmNumberToBigInt` with `requireMinimalEncoding: false`:
read little-endian, the top bit of the last byte is the sign. -/
def decodeVmNum (bs : List Nat) : Int :=
  match bs with
  | [] => 0
  | _ =>
    let raw := leNat bs
    if bs.getLastD 0 / 128 % 2 = 1 then
      -((raw - 128 * 256 ^ (bs.length - 1) : Nat) : Int)
    else (raw : Int)

/-- Model of libauth `encodeDataPush`: minimal push encoding.  Empty data is
OP_0; a single byte 1..16 is OP_1..OP_16 and 0x81 is OP_1NEGATE; otherwise a
direct push for up to 75 bytes, then OP_PUSHDATA1/2/4. -/
def encodeDataPush (data : List Nat) : List Nat :=
  if data.length = 0 then [0]
  else if data.length = 1 then
    let b := data.getD 0 0
    if b ≠ 0 ∧ b ≤ 16 then [0x50 + b]
    else if b = 0x81 then [0x4f]
    else [1, b]
  else if data.length ≤ 75 then data.length :: data
  else if data.length ≤ 255 then 0x4c :: data.length :: data
  else if data.length ≤ 65535 then 0x4d :: data.length % 256 :: data.length / 256 :: data
  else 0x4e :: data.length % 256 :: data.length / 256 % 256 :: data.length / 65536 % 256 :: data.length / 16777216 % 256 :: data

/-- Model of libauth `numberToBinUint32LEClamped`: clamp into the u32 range
and emit four little-endian bytes. -/
def u32leClamped (n : Int) : List Nat :=
  let m := (min (max n 0) 4294967295).toNat
  [m % 256, m / 256 % 256, m / 65536 % 256, m / 16777216 % 256]

/-- Model of `push4bytes` in src/blockchain.ts: push a number as four
little-endian bytes. -/
def push4bytes (n : Int) : List Nat := encodeDataPush (u32leClamped n)

/-- Model of `pushMinimal` in src/blockchain.ts: push a number with minimal
VM-number encoding. -/
def pushMinimal (n : Int) : List Nat := encodeDataPush (vmNumberBytes n)

/-- The fixed dMint bytecode tail shared by `dMintScript` and the
`parseDmintScript` regular expression (145 bytes). -/
def dmintTail : List Nat :=
  [189, 81, 117, 192, 200, 85, 121, 126, 168, 89, 121, 89, 121, 126, 168, 126,
   90, 122, 126, 170, 188, 1, 20, 127, 119, 88, 127, 4, 0, 0, 0, 0, 136, 129,
   118, 0, 162, 105, 162, 105, 87, 122, 229, 0, 160, 105, 86, 122, 230, 0,
   160, 105, 1, 208, 83, 121, 126, 12, 222, 192, 233, 170, 118, 227, 120, 228,
   162, 105, 230, 157, 126, 170, 118, 228, 123, 157, 84, 122, 129, 139, 118,
   83, 122, 156, 83, 122, 222, 120, 145, 129, 84, 122, 230, 147, 157, 99, 82,
   121, 205, 1, 216, 83, 121, 126, 1, 106, 126, 136, 103, 120, 222, 81, 157,
   84, 120, 84, 128, 126, 192, 235, 85, 127, 119, 126, 83, 121, 236, 120, 136,
   83, 121, 234, 192, 233, 136, 83, 121, 204, 81, 157, 117, 104, 109, 117, 81]

/-- The six state fields written into a dMint locking script. -/
structure DmintState where
  height : Int
  contractRef : List Nat
  tokenRef : List Nat
  maxHeight : Int
  reward : Int
  target : Int
deriving DecidableEq

/-- Model of `dMintScript` in src/blockchain.ts: the state prologue (height as
a 4-byte push, the two 36-byte references behind OP_PUSHINPUTREFSINGLETON
0xd8 and OP_PUSHINPUTREF 0xd0, then three minimal number pushes) followed by
the fixed bytecode tail. -/
def dMintScript (s : DmintState) : List Nat :=
  push4bytes s.height ++ [0xd8] ++ s.contractRef ++ [0xd0] ++ s.tokenRef ++
    pushMinimal s.maxHeight ++ pushMinimal s.reward ++ pushMinimal s.target ++ dmintTail

/-- Model of `parseDmintScript` in src/blockchain.ts: the anchored regular
expression strips the fixed tail and returns the state prologue, failing when
the tail is not a suffix. -/
def parseDmintScript (script : List Nat) : Option (List Nat) :=
  if dmintTail.isSuffixOf script then some (script.take (script.length - dmintTail.length))
  else none

/-- One token of the ASM rendering produced by radiantjs `Script.toASM` and
split on spaces: either the lowercase hex of pushed data, or an opcode name
(`Tok.name c` renders as the name of opcode `c`, except that opcode 0 renders
as the bare string 0 and opcode 0x4f as -1). -/
inductive Tok where
  | data : List Nat → Tok
  | name : Nat → Tok
deriving DecidableEq

/-- Disassemble script bytes into ASM tokens (model of radiantjs
`Script.fromHex(...).toASM().split(" ")`).  Plain pushes and
OP_PUSHDATA1/2/4 produce a hex token; the Radiant reference opcodes 0xd0 and
0xd8 carry 36 inline bytes and render as their name followed by the hex of
the reference; every other opcode renders as its name.  Fuel-bounded; one
byte of fuel per token suffices. -/
def disasm : Nat → List Nat → Option (List Tok)
  | _, [] => some []
  | 0, _ :: _ => none
  | fuel+1, b :: rest =>
    if 1 ≤ b ∧ b ≤ 75 then
      if rest.length < b then none
      else (disasm fuel (rest.drop b)).map (Tok.data (rest.take b) :: ·)
    else if b = 0x4c then
      if rest.length < 1 then none
      else
        let len := rest.getD 0 0
        if (rest.drop 1).length < len then none
        else (disasm fuel ((rest.drop 1).drop len)).map (Tok.data ((rest.drop 1).take len) :: ·)
    else if b = 0x4d then
      if rest.length < 2 then none
      else
        let len := rest.getD 0 0 + 256 * rest.getD 1 0
        if (rest.drop 2).length < len then none
        else (disasm fuel ((rest.drop 2).drop len)).map (Tok.data ((rest.drop 2).take len) :: ·)
    else if b = 0x4e then
      if rest.length < 4 then none
      else
        let len := rest.getD 0 0 + 256 * rest.getD 1 0 + 65536 * rest.getD 2 0 +
          16777216 * rest.getD 3 0
        if (rest.drop 4).length < len then none
        else (disasm fuel ((rest.drop 4).drop len)).map (Tok.data ((rest.drop 4).take len) :: ·)
    else if b = 0xd0 ∨ b = 0xd8 then
      if rest.length < 36 then none
      else (disasm fuel (rest.drop 36)).map (fun ts => Tok.name b :: Tok.data (rest.take 36) :: ts)
    else (disasm fuel rest).map (Tok.name b :: ·)

/-- Model of `opcodeToNum` in src/blockchain.ts applied to one ASM token.
The outer `Option` is failure of the whole parse (the hex decoder throws on
the odd-length renderings 0 and -1 of opcodes 0x00 and 0x4f); the inner
`Option` is the `false` result that `parseContractTx` filters out.  A hex
token decodes as a VM number without a minimality requirement but with
libauth's default 8-byte limit (`vmNumberToBigInt` returns an out-of-range
error, not a bigint, for longer data); a name token decodes only for the
push-number opcodes OP_1..OP_16. -/
def opcodeToNum : Tok → Option (Option Int)
  | Tok.name c =>
    if c = 0 ∨ c = 0x4f then none
    else if 0x51 ≤ c ∧ c ≤ 0x60 then some (some ((c : Int) - 0x50))
    else some none
  | Tok.data bs =>
    if 8 < bs.length then some none
    else some (some (decodeVmNum bs))

/-- Decode the state prologue tokens exactly as `parseContractTx` does: splice
out the two reference opcodes and their data, require
OP_PUSHINPUTREFSINGLETON / OP_PUSHINPUTREF and that the contract reference
equals the subscribed reference, then convert the remaining tokens to numbers,
drop the filtered ones, and read height, maxHeight, reward, target. -/
def parsePrologueToks (toks : List Tok) (ref : List Nat) : Option DmintState :=
  match toks with
  | t0 :: Tok.name 0xd8 :: Tok.data contractRef :: Tok.name 0xd0 :: Tok.data tokenRef :: rest =>
    if contractRef = ref then
      match (t0 :: rest).mapM opcodeToNum with
      | none => none
      | some vals =>
        match vals.filterMap id with
        | height :: maxHeight :: reward :: target :: _ =>
          some ⟨height, contractRef, tokenRef, maxHeight, reward, target⟩
        | _ => none
    else none
  | _ => none

/-- The full state-output decoding path of `parseContractTx` for one output
script: strip the dMint tail, disassemble the prologue, and decode the state
fields, validating the subscribed reference. -/
def parseStateScript (script : List Nat) (ref : List Nat) : Option DmintState :=
  (parseDmintScript script).bind fun prologue =>
    (disasm prologue.length prologue).bind fun toks =>
      parsePrologueToks toks ref

/-- Model of `burnScript` in src/blockchain.ts: OP_PUSHINPUTREFSINGLETON, the
36-byte reference, OP_RETURN. -/
def burnScript (ref : List Nat) : List Nat := 0xd8 :: ref ++ [0x6a]

/-- In the hex string the regular expression of `parseBurnScript` checks, a
byte whose two hex characters are both decimal digits is exactly a byte whose
two nibbles are at most 9. -/
def decimalHexByte (b : Nat) : Bool := b / 16 % 16 ≤ 9 && b % 16 ≤ 9

/-- Model of `parseBurnScript` in src/blockchain.ts.  The regular expression
is anchored d8, 64 hex characters, 8 DECIMAL-DIGIT characters, 6a: it matches
only 39-byte scripts whose last four reference bytes use no hex letter, and
returns the 36-byte reference. -/
def parseBurnScript (script : List Nat) : Option (List Nat) :=
  match script with
  | first :: rest =>
    if first = 0xd8 ∧ rest.length = 37 ∧ rest.getLastD 0 = 0x6a ∧
        ((rest.dropLast.drop 32).all decimalHexByte) then
      some rest.dropLast
    else none
  | [] => none

/-! ### Claim coordinator (src/blockchain.ts `Blockchain`, `claimTokens`) -/

/-- The coordinator state of the `Blockchain` class: the nonce queue, the
`ready` guard, plus the set of broadcasts currently in flight (awaited
`claimTokens` calls), which the class keeps implicit in its control flow.
Nonces are identified by number. -/
structure Coord where
  nonces : List Nat
  ready : Bool
  inFlight : List Nat
deriving DecidableEq

/-- The initial coordinator state (`nonces = []`, `ready = true`). -/
def coordInit : Coord := ⟨[], true, []⟩

/-- The synchronous half of `Blockchain.submit`: pop the newest nonce, clear
`ready`, and start the broadcast.  With no nonce (or no contract or work) it
returns unchanged. -/
def submitStep (s : Coord) : Coord :=
  match s.nonces.getLast? with
  | none => s
  | some n => ⟨s.nonces.dropLast, false, s.inFlight ++ [n]⟩

/-- Model of `Blockchain.found`: append all delivered nonces to the queue and
submit when `ready`. -/
def foundStep (s : Coord) (values : List Nat) : Coord :=
  let s1 : Coord := ⟨s.nonces ++ values, s.ready, s.inFlight⟩
  if s1.ready then submitStep s1 else s1

/-- Model of the continuation of `Blockchain.submit` when the awaited
broadcast resolves.  Success clears the queue and restores `ready`; failure
records the reject and either submits the next nonce or restores `ready`. -/
def resultStep (s : Coord) (success : Bool) : Coord :=
  if s.inFlight.isEmpty then s
  else
    let remaining := s.inFlight.tail
    if success then ⟨[], true, remaining⟩
    else if s.nonces.isEmpty then ⟨s.nonces, true, remaining⟩
    else submitStep ⟨s.nonces, s.ready, remaining⟩

/-- Events driving the coordinator: a batch of found nonces, or the resolution
of the in-flight broadcast. -/
inductive CoordEv where
  | found : List Nat → CoordEv
  | result : Bool → CoordEv
deriving DecidableEq

/-- Run the coordinator over a list of events. -/
def runCoord (s : Coord) (evs : List CoordEv) : Coord :=
  evs.foldl (fun st ev =>
    match ev with
    | CoordEv.found vs => foundStep st vs
    | CoordEv.result b => resultStep st b) s

/-- A wallet unspent output as the coordinator tracks it. -/
structure WUtxo where
  txHash : String
  txPos : Nat
  value : Int
deriving DecidableEq

/-- Model of the snapshot update after a successful broadcast in
`claimTokens` (src/blockchain.ts): the wallet UTXO list is replaced by the
single change output, the last output of the broadcast transaction, and the
balance is recomputed from the new list.  `prev` is the snapshot the inputs
were consolidated from; `outputs` are the output values of the sealed
transaction. -/
def claimTokensSuccess (prev : List WUtxo) (txid : String) (outputs : List Int) :
    List WUtxo × Int :=
  let _ := prev
  let changeOutputIndex := outputs.length - 1
  let newUtxos : List WUtxo := [⟨txid, changeOutputIndex, outputs.getD changeOutputIndex 0⟩]
  (newUtxos, newUtxos.foldl (fun a u => a + u.value) 0)

/-- Modelled from the spec: the broadcast-error taxonomy and recovery of the
claim coordinator.  The handler that classifies broadcast failures and the
`recoverFromError` routine are referenced from src/client.tsx but their
implementation in src/blockchain.ts is not part of the provided sources, so
this state records the observable reactions the specification assigns to
mempool-conflict rejects. -/
structure RecoveryState where
  consecutiveConflicts : Nat
  rejected : Nat
  recoveryTimerArmed : Bool
  engineStopped : Bool
  walletRefreshed : Bool
  locationRefetched : Bool
  resubscribed : Bool
  engineRestarted : Bool
deriving DecidableEq

/-- The fresh coordinator error state: no conflicts seen, no reaction taken. -/
def freshRecovery : RecoveryState := ⟨0, 0, false, false, false, false, false, false⟩

/-- Modelled from the spec: full recovery stops the engine, refreshes the
wallet unspent set, refetches the contract location, resubscribes, and
restarts the engine if mining was enabled. -/
def fullRecovery (miningEnabled : Bool) (s : RecoveryState) : RecoveryState :=
  ⟨0, s.rejected, s.recoveryTimerArmed, true, true, true, true, miningEnabled⟩

/-- Modelled from the spec: reaction to a broadcast reject whose reason
contains txn-mempool-conflict.  The consecutive-conflict counter advances; on
the third consecutive conflict a full recovery is performed, otherwise the
reject is recorded and a 10-second recovery timer is armed. -/
def onMempoolConflict (miningEnabled : Bool) (s : RecoveryState) : RecoveryState :=
  let c := s.consecutiveConflicts + 1
  if 3 ≤ c then fullRecovery miningEnabled ⟨c, s.rejected + 1, s.recoveryTimerArmed,
    s.engineStopped, s.walletRefreshed, s.locationRefetched, s.resubscribed, s.engineRestarted⟩
  else ⟨c, s.rejected + 1, true, s.engineStopped, s.walletRefreshed,
    s.locationRefetched, s.resubscribed, s.engineRestarted⟩

/-- Modelled from the spec: any other broadcast outcome resets the
consecutive-conflict counter. -/
def onOtherOutcome (s : RecoveryState) : RecoveryState :=
  ⟨0, s.rejected, s.recoveryTimerArmed, s.engineStopped, s.walletRefreshed,
   s.locationRefetched, s.resubscribed, s.engineRestarted⟩

/-! ## Theorems -/

/-- Sanity check of the SHA-256 model against the standard empty-message
test vector. -/
theorem sha256_nil_vector : sha256 [] = [227, 176, 196, 66, 152, 252, 28, 20, 154, 251,
    244, 200, 153, 111, 185, 36, 39, 174, 65, 228, 100, 155, 147, 76, 164, 149, 153, 27,
    120, 82, 184, 85] := by decide

/-- Sanity check of the SHA-256 model against the standard abc test vector. -/
theorem sha256_abc_vector : sha256 [97, 98, 99] = [186, 120, 22, 191, 143, 1, 207, 234,
    65, 65, 64, 222, 93, 174, 34, 35, 176, 3, 97, 163, 150, 23, 122, 156, 180, 16, 255,
    97, 242, 0, 21, 173] := by
  decide

/-- SHA-256 always produces 32 bytes. -/
theorem sha256_length (msg : List Nat) : (sha256 msg).length = 32 := by
  simp [sha256, be32Bytes]

/-- Overwriting a fresh zero buffer of length `n + 8` with an `n`-byte prefix
and then 8 bytes at offset 64 yields the plain concatenation when the prefix
has length 64. -/
theorem setBytes_preimage_nonce (p nonce : List Nat) (hp : p.length = 64)
    (hn : nonce.length = 8) :
    setBytes (setBytes (List.replicate (p.length + 8) 0) 0 p) 64 nonce = p ++ nonce := by
  have h1 : setBytes (List.replicate (p.length + 8) 0) 0 p = p ++ List.replicate 8 0 := by
    simp [setBytes, hp, List.drop_replicate]
  rw [h1, setBytes]
  have h2 : (p ++ List.replicate 8 0).take 64 = p := List.take_left' hp
  have h3 : (p ++ List.replicate 8 0).drop (64 + nonce.length) = [] := by
    apply List.drop_eq_nil_of_le
    simp [hp, hn]
  rw [h2, h3]
  simp

/-- A list of length at least four decomposes into its first four entries. -/
theorem exists_four_cons (l : List Nat) (h : l.length = 32) :
    ∃ b0 b1 b2 b3 t, l = b0 :: b1 :: b2 :: b3 :: t := by
  rcases l with _ | ⟨b0, _ | ⟨b1, _ | ⟨b2, _ | ⟨b3, t⟩⟩⟩⟩ <;> simp_all

/-- C1: the LegacyV1 host verifier decides exactly the specification
predicate: for a 64-byte preimage prefix and an 8-byte nonce, `verify`
returns true if and only if the double SHA-256 of `preimage || nonce` has
four leading zero bytes and its bytes 4..12, as a big-endian unsigned 64-bit
integer, are strictly below the target. -/
theorem verify_decides_legacyV1 (target : Nat) (p nonce : List Nat)
    (hp : p.length = 64) (hn : nonce.length = 8) :
    verify target p nonce = true ↔ legacyV1Accepts target (p ++ nonce) := by
  have hbuf := setBytes_preimage_nonce p nonce hp hn
  obtain ⟨b0, b1, b2, b3, t, ht⟩ :=
    exists_four_cons (sha256 (sha256 (p ++ nonce))) (sha256_length _)
  simp only [verify, legacyV1Accepts, hbuf, ht]
  rw [show List.take 4 (b0 :: b1 :: b2 :: b3 :: t) = [b0, b1, b2, b3] from rfl,
    show List.drop 4 (b0 :: b1 :: b2 :: b3 :: t) = t from rfl,
    show (b0 :: b1 :: b2 :: b3 :: t).getD 0 0 = b0 from rfl,
    show (b0 :: b1 :: b2 :: b3 :: t).getD 1 0 = b1 from rfl,
    show (b0 :: b1 :: b2 :: b3 :: t).getD 2 0 = b2 from rfl,
    show (b0 :: b1 :: b2 :: b3 :: t).getD 3 0 = b3 from rfl]
  by_cases hz : b0 = 0 ∧ b1 = 0 ∧ b2 = 0 ∧ b3 = 0
  · obtain ⟨e0, e1, e2, e3⟩ := hz
    subst e0; subst e1; subst e2; subst e3
    rw [if_neg (by simp)]
    rw [show (decide (beU64 (List.take 8 t) < target) = true) = (beU64 (List.take 8 t) < target)
      from decide_eq_true_eq]
    exact ⟨fun hlt => ⟨rfl, hlt⟩, fun hh => hh.2⟩
  · have hcond : b0 ≠ 0 ∨ b1 ≠ 0 ∨ b2 ≠ 0 ∨ b3 ≠ 0 := by
      by_contra hno
      push_neg at hno
      exact hz ⟨hno.1, hno.2.1, hno.2.2.1, hno.2.2.2⟩
    rw [if_pos hcond]
    simp only [Bool.false_eq_true, false_iff, not_and]
    intro hfour
    simp only [List.cons.injEq, and_true] at hfour
    exact fun _ => hz ⟨hfour.1, hfour.2.1, hfour.2.2.1, hfour.2.2.2⟩

/-- Witness for C1: the verifier theorem applied to the all-zero 64-byte
preimage, the all-zero nonce and target 1, hypotheses discharged
concretely. -/
theorem verify_decides_legacyV1_witness :
    (List.replicate 64 (0 : Nat)).length = 64 ∧ (List.replicate 8 (0 : Nat)).length = 8 ∧
    (verify 1 (List.replicate 64 0) (List.replicate 8 0) = true ↔
      legacyV1Accepts 1 (List.replicate 64 0 ++ List.replicate 8 0)) :=
  ⟨by decide, by decide,
    verify_decides_legacyV1 1 (List.replicate 64 0) (List.replicate 8 0) (by decide) (by decide)⟩

/-- C2: the canonical preimage is 64 bytes; its first half is the SHA-256 of
the byte-reversed location txid concatenated with the contract reference, its
second half the SHA-256 of the two double-SHA-256 script commitments, with
`createWork` supplying the byte-reversed txid. -/
theorem powPreimage_canonical (location contractRef : List Nat) (target : Nat)
    (inputScript outputScript : List Nat) :
    (powPreimage (createWork location contractRef target inputScript outputScript)).length = 64 ∧
    (powPreimage (createWork location contractRef target inputScript outputScript)).take 32 =
      sha256 (location.reverse ++ contractRef) ∧
    (powPreimage (createWork location contractRef target inputScript outputScript)).drop 32 =
      sha256 (sha256 (sha256 inputScript) ++ sha256 (sha256 outputScript)) ∧
    (createWork location contractRef target inputScript outputScript).txid = location.reverse := by
  unfold powPreimage createWork cat
  refine ⟨?_, ?_, ?_, rfl⟩
  · simp [sha256_length]
  · exact List.take_left' (sha256_length _)
  · exact List.drop_left' (sha256_length _)

/-- The clamp pattern used by the calculators equals `clampInt` whenever the
bounds are ordered. -/
theorem ite_clamp (lo hi : Int) (hlohi : lo ≤ hi) (adj : Int) :
    (if adj > hi then hi else if adj < lo then lo else adj) = clampInt lo hi adj := by
  unfold clampInt
  rw [max_def, min_def]
  split_ifs <;> omega

/-- The positivity guard used by the calculators equals a max with 1. -/
theorem ite_pos_max (z : Int) : (if z > 0 then z else 1) = max 1 z := by
  rw [max_def]
  split_ifs <;> omega

/-- Counterexample for C3: at an epoch boundary reached with
`new_time = epoch_start_time` (actual elapsed time 0) the code returns the
difficulty unchanged, while the claimed formula with
`actual = max(1, new_time - epoch_start_time)` multiplies by the full upward
clamp. -/
theorem epochCalc_counterexample :
    epochCalc ⟨100, 60, 4⟩ ⟨10000, 0⟩ 100 0 = 10000 ∧
    epochClaimNext ⟨100, 60, 4⟩ ⟨10000, 0⟩ 100 0 = 40000 ∧
    epochCalc ⟨100, 60, 4⟩ ⟨10000, 0⟩ 100 0 ≠ epochClaimNext ⟨100, 60, 4⟩ ⟨10000, 0⟩ 100 0 := by
  refine ⟨by decide, by decide, by decide⟩

/-- C3 amended: at a height not divisible by the epoch length the difficulty
is unchanged; at a boundary, provided the elapsed time
`new_time - last_recorded_time` is nonzero (the code returns the difficulty
unchanged when it is zero, and divides by a negative elapsed time rather than
clamping it to 1), the result is
`max(1, current * clamp(expected*P / actual, P/M, P*M) / P)` with truncating
divisions. -/
theorem epochCalc_next_difficulty (p : EpochParams) (st : EpochState) (h : Nat) (t : Int) :
    (h % p.epochLength ≠ 0 → epochCalc p st h t = st.currentDifficulty) ∧
    (h % p.epochLength = 0 → t - st.lastBlockTime ≠ 0 → 1 ≤ p.maxAdjustment →
      epochCalc p st h t = max 1 (Int.tdiv (st.currentDifficulty *
        clampInt (Int.tdiv PRECISION (p.maxAdjustment : Int)) ((p.maxAdjustment : Int) * PRECISION)
          (Int.tdiv (((p.epochLength * p.targetBlockTime : Nat) : Int) * PRECISION)
            (t - st.lastBlockTime))) PRECISION)) := by
  constructor
  · intro hne
    unfold epochCalc
    rw [if_pos hne]
  · intro hdiv hne hM
    have hMi : (1 : Int) ≤ (p.maxAdjustment : Int) := by exact_mod_cast hM
    have hlohi : Int.tdiv PRECISION (p.maxAdjustment : Int) ≤ (p.maxAdjustment : Int) * PRECISION := by
      have h1 : Int.tdiv PRECISION (p.maxAdjustment : Int) ≤ PRECISION := by
        rw [Int.tdiv_eq_ediv (by norm_num [PRECISION]) (by omega)]
        exact Int.ediv_le_self _ (by norm_num [PRECISION])
      have h2 : PRECISION ≤ (p.maxAdjustment : Int) * PRECISION := by
        have hP : (0 : Int) ≤ PRECISION := by norm_num [PRECISION]
        nlinarith
      exact le_trans h1 h2
    simp only [epochCalc, ite_clamp _ _ hlohi, ite_pos_max]
    split_ifs with h1
    · exact absurd hdiv h1
    · rfl

/-- Witness for C3: the amended epoch theorem applied to the S2 scenario
(difficulty 10000, epoch length 100, block time 60, max adjustment 4,
epoch start 0, arrival at height 100 and time 12000), hypotheses discharged
concretely; the resulting difficulty is 5000. -/
theorem epochCalc_next_difficulty_witness :
    (100 % (100 : Nat) = 0) ∧ ((12000 : Int) - 0 ≠ 0) ∧ (1 ≤ 4) ∧
    epochCalc ⟨100, 60, 4⟩ ⟨10000, 0⟩ 100 12000 = max 1 (Int.tdiv ((10000 : Int) *
      clampInt (Int.tdiv PRECISION ((4 : Nat) : Int)) (((4 : Nat) : Int) * PRECISION)
        (Int.tdiv (((100 * 60 : Nat) : Int) * PRECISION) ((12000 : Int) - 0))) PRECISION) ∧
    epochCalc ⟨100, 60, 4⟩ ⟨10000, 0⟩ 100 12000 = 5000 :=
  ⟨rfl, by decide, by decide,
    (epochCalc_next_difficulty ⟨100, 60, 4⟩ ⟨10000, 0⟩ 100 12000).2 rfl (by decide) (by decide),
    by decide⟩

/-- Composition of the two floored divisions in the square term. -/
theorem fdiv_sq_half (c : Int) :
    Int.fdiv (Int.fdiv (c * c) 65536) 2 = Int.fdiv (c * c) 131072 := by
  obtain ⟨m, hm⟩ := Int.eq_ofNat_of_zero_le (mul_self_nonneg c)
  rw [hm, Int.fdiv_eq_ediv _ (by norm_num), Int.fdiv_eq_ediv _ (by norm_num),
    Int.fdiv_eq_ediv _ (by norm_num)]
  have h : (m / 65536 / 2 : Nat) = m / 131072 := by
    rw [Nat.div_div_eq_div_mul]
  exact_mod_cast h

/-- C4: the ASERT fixed-point exponential clamps its argument to plus or
minus four times the radix and evaluates the cubic Taylor polynomial on the
clamped argument in the code's integer arithmetic; in particular every
exponent above `4R` yields exactly `fixedPointExp (4R)`, so the adjustment
factor is bounded. -/
theorem fixedPointExp_clamped (x : Int) :
    fixedPointExp x = taylorExp (clampExponent x) ∧
    (4 * RADIX < x → fixedPointExp x = fixedPointExp (4 * RADIX)) := by
  have key : ∀ y : Int, fixedPointExp y = taylorExp (clampExponent y) := by
    intro y
    have hc : fixedPointExp y = RADIX + clampExponent y +
        Int.fdiv (Int.fdiv (clampExponent y * clampExponent y) 65536) 2 +
        Int.tdiv (Int.fdiv (Int.fdiv (clampExponent y * clampExponent y) 65536 *
          clampExponent y) 65536) 6 := rfl
    rw [hc, fdiv_sq_half]
    rfl
  refine ⟨key x, fun hx => ?_⟩
  have h1 : clampExponent x = 4 * RADIX := by
    unfold clampExponent
    rw [if_pos hx]
  have h2 : clampExponent (4 * RADIX) = 4 * RADIX := by decide
  rw [key x, key (4 * RADIX), h1, h2]

/-- Witness for C4: the exponent `4R + 1 = 262145` exceeds the clamp and the
factor equals `fixedPointExp (4R)` exactly (both are 1551018). -/
theorem fixedPointExp_clamped_witness :
    4 * RADIX < 262145 ∧ fixedPointExp 262145 = fixedPointExp (4 * RADIX) ∧
    fixedPointExp (4 * RADIX) = 1551018 :=
  ⟨by decide, (fixedPointExp_clamped 262145).2 (by decide), by decide⟩

/-- Unfolding of the LWMA loop one step at a time. -/
theorem lwmaSums_succ (p : LwmaParams) (bt : List Int) (s n : Nat) :
    lwmaSums p bt s (n + 1) =
      ((lwmaSums p bt s n).1 + lwmaClamped p bt s n * ((n : Int) + 1),
       (lwmaSums p bt s n).2 + ((n : Int) + 1)) := by
  unfold lwmaSums
  rw [List.range_succ, List.foldl_append]
  rfl

/-- When every clamped solve time in the window equals a constant `C`, the
weighted sum is `C` times the weight sum, and the weight sum is at least 1
for a nonempty window. -/
theorem lwmaSums_const (p : LwmaParams) (bt : List Int) (s : Nat) (C : Int) :
    ∀ n : Nat, (∀ i < n, lwmaClamped p bt s i = C) →
      (lwmaSums p bt s n).1 = C * (lwmaSums p bt s n).2 ∧
      (0 : Int) ≤ (lwmaSums p bt s n).2 ∧
      (1 ≤ n → 1 ≤ (lwmaSums p bt s n).2) := by
  intro n
  induction n with
  | zero =>
    intro _
    refine ⟨by simp [lwmaSums], by simp [lwmaSums], by omega⟩
  | succ m ih =>
    intro hC
    obtain ⟨ih1, ih2, _⟩ := ih (fun i hi => hC i (by omega))
    rw [lwmaSums_succ]
    refine ⟨?_, by push_cast; omega, fun _ => by push_cast; omega⟩
    rw [hC m (by omega), ih1]
    ring

/-- Truncating division of `T_b * P` by the fully clamped mean `T_b * 6`
yields exactly 166666 for every positive block time. -/
theorem tdiv_precision_six (tb : Int) (htb : 1 ≤ tb) :
    Int.tdiv (tb * PRECISION) (tb * 6) = 166666 := by
  unfold PRECISION
  rw [Int.tdiv_eq_ediv (by omega) (by omega)]
  rw [show tb * 1000000 = tb * 4 + (tb * 6) * 166666 from by ring,
    Int.add_mul_ediv_left _ _ (by omega)]
  rw [Int.ediv_eq_zero_of_lt (by omega) (by omega)]
  norm_num

/-- Counterexample for C5: with difficulty 6, target block time 60 and the
single solve time 360 (six times the target, thus clamped), the code produces
`max(1, 6 * 333333 / 1000000) = 1`, not `max(1, 6 / 3) = 2`. -/
theorem lwmaCalc_counterexample :
    lwmaCalc ⟨144, 60⟩ 6 [0, 360] = 1 ∧ lwmaClaimNext 6 = 2 ∧
    lwmaCalc ⟨144, 60⟩ 6 [0, 360] ≠ lwmaClaimNext 6 := by
  refine ⟨by decide, by decide, by decide⟩

/-- C5 amended: when the history has at least two entries and every solve
time is at least `6 * T_b` (so each is clamped to `6 * T_b`), the LWMA
result is `max(1, current * (P/3) / P) = max(1, current * 333333 / 1000000)`,
the lower clamp with the truncated constant `P/3 = 333333` — which differs
from `current / 3` because `P/3` is truncated before the final division. -/
theorem lwmaCalc_all_clamped (p : LwmaParams) (cur : Int) (bt : List Int)
    (hlen : 2 ≤ bt.length) (hw : 1 ≤ p.windowSize) (htb : 1 ≤ p.targetBlockTime)
    (hsolve : ∀ j < bt.length - 1,
      p.targetBlockTime * 6 ≤ bt.getD (j + 1) 0 - bt.getD j 0) :
    lwmaCalc p cur bt = max 1 (Int.tdiv (cur * 333333) 1000000) := by
  have hnot2 : ¬ bt.length < 2 := by omega
  have hn1 : 1 ≤ min (bt.length - 1) p.windowSize := le_min (by omega) hw
  have hkey : ∀ i < min (bt.length - 1) p.windowSize,
      lwmaClamped p bt (bt.length - min (bt.length - 1) p.windowSize - 1) i =
        p.targetBlockTime * 6 := by
    intro i hi
    have hnle : min (bt.length - 1) p.windowSize ≤ bt.length - 1 := min_le_left _ _
    have hidx : (bt.length - min (bt.length - 1) p.windowSize - 1) + i < bt.length - 1 := by
      omega
    have hd := hsolve ((bt.length - min (bt.length - 1) p.windowSize - 1) + i) hidx
    unfold lwmaClamped
    rw [max_eq_left (by omega), min_eq_right hd]
  obtain ⟨hsum1, _, hsum2⟩ :=
    lwmaSums_const p bt (bt.length - min (bt.length - 1) p.windowSize - 1)
      (p.targetBlockTime * 6) (min (bt.length - 1) p.windowSize) hkey
  have hwpos : 1 ≤ (lwmaSums p bt (bt.length - min (bt.length - 1) p.windowSize - 1)
      (min (bt.length - 1) p.windowSize)).2 := hsum2 hn1
  have hCpos : (0 : Int) < p.targetBlockTime * 6 := by omega
  have hprod : (0 : Int) < (p.targetBlockTime * 6) *
      (lwmaSums p bt (bt.length - min (bt.length - 1) p.windowSize - 1)
        (min (bt.length - 1) p.windowSize)).2 := mul_pos hCpos (by omega)
  simp only [lwmaCalc]
  rw [if_neg hnot2, if_neg (not_lt.mpr hn1),
    if_neg (not_or.mpr ⟨by omega, by rw [hsum1]; exact ne_of_gt hprod⟩)]
  rw [hsum1, Int.mul_tdiv_cancel _ (by omega), tdiv_precision_six p.targetBlockTime htb]
  rw [show (if (166666 : Int) > 3 * PRECISION then 3 * PRECISION
      else if (166666 : Int) < Int.tdiv PRECISION 3 then Int.tdiv PRECISION 3
      else (166666 : Int)) = (333333 : Int) from by decide]
  rw [ite_pos_max]
  rfl

/-- Witness for C5: the amended LWMA theorem applied to difficulty 1000,
window size 5, target block time 60 and the steady history with solve times
360 (all at the clamp); the result is `max(1, 1000*333333/1000000) = 333`. -/
theorem lwmaCalc_all_clamped_witness :
    (2 ≤ ([0, 360, 720] : List Int).length) ∧ (1 ≤ (5 : Nat)) ∧ (1 ≤ (60 : Int)) ∧
    lwmaCalc ⟨5, 60⟩ 1000 [0, 360, 720] = max 1 (Int.tdiv ((1000 : Int) * 333333) 1000000) ∧
    lwmaCalc ⟨5, 60⟩ 1000 [0, 360, 720] = 333 :=
  ⟨by decide, by decide, by decide,
    lwmaCalc_all_clamped ⟨5, 60⟩ 1000 [0, 360, 720] (by decide) (by decide) (by decide)
      (by decide),
    by decide⟩

/-- The little-endian magnitude encoder is left inverse to `leNat` for any
sufficient fuel. -/
theorem leNat_natLE : ∀ (f m : Nat), m ≤ f → leNat (natLE f m) = m := by
  intro f
  induction f with
  | zero =>
    intro m hm
    interval_cases m
    rfl
  | succ g ih =>
    intro m hm
    match m with
    | 0 => rfl
    | k+1 =>
      show leNat ((k+1) % 256 :: natLE g ((k+1) / 256)) = k + 1
      rw [leNat, ih ((k+1) / 256) (by omega)]
      omega

/-- A trailing zero byte does not change the little-endian value. -/
theorem leNat_append_zero (bs : List Nat) : leNat (bs ++ [0]) = leNat bs := by
  induction bs with
  | nil => rfl
  | cons b t ih => simp [leNat, ih]

/-- The magnitude encoding of a positive number is nonempty. -/
theorem natLE_ne_nil (f m : Nat) (h1 : 1 ≤ m) (hf : m ≤ f) : natLE f m ≠ [] := by
  match f with
  | 0 => exact absurd (h1.trans hf) (by norm_num)
  | g+1 =>
    match m, h1 with
    | k+1, _ => simp [natLE]

/-- The magnitude encoding of `m < 256^k` uses at most `k` bytes. -/
theorem natLE_length : ∀ (f m k : Nat), m < 256 ^ k → (natLE f m).length ≤ k := by
  intro f
  induction f with
  | zero =>
    intro m k _
    match m with
    | 0 => simp [natLE]
    | _+1 => simp [natLE]
  | succ g ih =>
    intro m k hk
    match m with
    | 0 => simp [natLE]
    | j+1 =>
      match k with
      | 0 => omega
      | i+1 =>
        show ((j+1) % 256 :: natLE g ((j+1) / 256)).length ≤ i + 1
        have hdiv : (j+1) / 256 < 256 ^ i := by
          have h2 : (j+1) < 256 ^ i * 256 := by
            have : (256 : Nat) ^ (i+1) = 256 ^ i * 256 := by ring
            omega
          omega
        simpa using ih ((j+1) / 256) i hdiv

/-- The little-endian value is at least the last byte times its place
value. -/
theorem leNat_ge_last : ∀ (bs : List Nat) (y : Nat), bs.getLast? = some y →
    y * 256 ^ (bs.length - 1) ≤ leNat bs := by
  intro bs
  induction bs with
  | nil =>
    intro y hy
    simp at hy
  | cons b t ih =>
    intro y hy
    cases t with
    | nil =>
      have hby : b = y := by simpa using hy
      subst hby
      simp [leNat]
    | cons c t2 =>
      rw [List.getLast?_cons_cons] at hy
      have hih := ih y hy
      show y * 256 ^ ((b :: c :: t2).length - 1) ≤ leNat (b :: c :: t2)
      have hlen : (b :: c :: t2).length - 1 = ((c :: t2).length - 1) + 1 := by
        simp
      rw [hlen, show leNat (b :: c :: t2) = b + 256 * leNat (c :: t2) from rfl]
      calc y * 256 ^ (((c :: t2).length - 1) + 1)
          = 256 * (y * 256 ^ ((c :: t2).length - 1)) := by ring
        _ ≤ 256 * leNat (c :: t2) := Nat.mul_le_mul_left _ hih
        _ ≤ b + 256 * leNat (c :: t2) := Nat.le_add_left _ _

/-- A one-byte magnitude: numbers 1..255 encode as their single byte. -/
theorem natLE_small (m : Nat) (h1 : 1 ≤ m) (h2 : m ≤ 255) : natLE m m = [m] := by
  match m, h1 with
  | k+1, _ =>
    show (k+1) % 256 :: natLE k ((k+1) / 256) = [k+1]
    have hmod : (k+1) % 256 = k+1 := Nat.mod_eq_of_lt (by omega)
    have hdiv : (k+1) / 256 = 0 := Nat.div_eq_of_lt (by omega)
    rw [hmod, hdiv]
    simp [natLE]

/-- Decoding is left inverse to the VM-number encoding on positive values. -/
theorem decodeVmNum_vmNumberBytes (v : Int) (h1 : 1 ≤ v) :
    decodeVmNum (vmNumberBytes v) = v := by
  have hv0 : v ≠ 0 := by omega
  have hvneg : ¬ v < 0 := by omega
  have hm1 : 1 ≤ v.natAbs := by omega
  have hmag := natLE_ne_nil v.natAbs v.natAbs hm1 le_rfl
  obtain ⟨b, bs, hbs⟩ := List.exists_cons_of_ne_nil hmag
  have hle : leNat (natLE v.natAbs v.natAbs) = v.natAbs := leNat_natLE _ _ le_rfl
  have habs : ((v.natAbs : Nat) : Int) = v := by omega
  unfold vmNumberBytes
  rw [if_neg hv0]
  by_cases htop : (natLE v.natAbs v.natAbs).getLastD 0 / 128 % 2 = 1
  · rw [if_pos htop, if_neg hvneg, hbs]
    show decodeVmNum (b :: (bs ++ [0])) = v
    have hlast : (b :: (bs ++ [0])).getLastD 0 = 0 := by
      rw [show b :: (bs ++ [0]) = (b :: bs) ++ [0] from rfl]
      exact List.getLastD_concat _ _ _
    simp only [decodeVmNum, hlast]
    rw [if_neg (by norm_num)]
    rw [show b :: (bs ++ [0]) = (b :: bs) ++ [0] from rfl, leNat_append_zero, ← hbs, hle]
    exact habs
  · rw [if_neg htop, if_neg hvneg]
    rw [hbs] at htop ⊢
    simp only [decodeVmNum]
    rw [if_neg htop, ← hbs, hle]
    exact habs

/-- The disassembler is fuel-insensitive above one unit of fuel per byte:
any fuel at least the list length gives the canonical run. -/
theorem disasm_ge : ∀ (f : Nat) (l : List Nat), l.length ≤ f → disasm f l = disasm l.length l := by
  intro f
  induction f using Nat.strong_induction_on with
  | _ f IH =>
    intro l hl
    match l with
    | [] => simp [disasm]
    | b :: rest =>
      match f with
      | 0 => exact absurd hl (by simp)
      | g+1 =>
        have hrl : rest.length ≤ g := by
          have : (b :: rest).length = rest.length + 1 := rfl
          omega
        show disasm (g+1) (b :: rest) = disasm (rest.length + 1) (b :: rest)
        simp only [disasm]
        split_ifs <;> try rfl
        all_goals
          exact congrArg _
            ((IH g (by omega) _ (by first | omega | (simp only [List.length_drop]; omega))).trans
             (IH rest.length (by omega) _
               (by first | omega | (simp only [List.length_drop]; omega))).symm)

/-- Disassembling a direct push: one data token, then the canonical run on
the remainder. -/
theorem disasm_push (b : Nat) (bs rest : List Nat) (hb1 : 1 ≤ b) (hb2 : b ≤ 75)
    (hlen : bs.length = b) :
    disasm (b :: (bs ++ rest)).length (b :: (bs ++ rest)) =
      (disasm rest.length rest).map (Tok.data bs :: ·) := by
  show disasm ((bs ++ rest).length + 1) (b :: (bs ++ rest)) = _
  simp only [disasm]
  rw [if_pos ⟨hb1, hb2⟩, if_neg (by simp [hlen])]
  rw [List.take_append_of_le_length (by omega), List.drop_append_of_le_length (by omega)]
  rw [show bs.take b = bs from by rw [← hlen]; exact List.take_length _, -- take all
    show bs.drop b = [] from by rw [← hlen]; exact List.drop_length _]
  rw [List.nil_append]
  rw [disasm_ge ((bs ++ rest).length) rest (by simp)]

/-- Disassembling a Radiant reference opcode (0xd0 or 0xd8): the opcode name
token, the 36-byte reference as a data token, then the canonical run on the
remainder. -/
theorem disasm_ref (op : Nat) (bs rest : List Nat) (hop : op = 0xd0 ∨ op = 0xd8)
    (hlen : bs.length = 36) :
    disasm (op :: (bs ++ rest)).length (op :: (bs ++ rest)) =
      (disasm rest.length rest).map (fun ts => Tok.name op :: Tok.data bs :: ts) := by
  show disasm ((bs ++ rest).length + 1) (op :: (bs ++ rest)) = _
  simp only [disasm]
  rw [if_neg (by rcases hop with h | h <;> omega), if_neg (by rcases hop with h | h <;> omega),
    if_neg (by rcases hop with h | h <;> omega), if_neg (by rcases hop with h | h <;> omega),
    if_pos hop, if_neg (by simp [hlen])]
  rw [List.take_append_of_le_length (by omega), List.drop_append_of_le_length (by omega)]
  rw [show bs.take 36 = bs from by rw [← hlen]; exact List.take_length _,
    show bs.drop 36 = [] from by rw [← hlen]; exact List.drop_length _]
  rw [List.nil_append]
  rw [disasm_ge ((bs ++ rest).length) rest (by simp)]

/-- Disassembling a push-number opcode OP_1..OP_16 (0x51..0x60): one name
token, then the canonical run on the remainder. -/
theorem disasm_opn (c : Nat) (rest : List Nat) (hc1 : 81 ≤ c) (hc2 : c ≤ 96) :
    disasm (c :: rest).length (c :: rest) =
      (disasm rest.length rest).map (Tok.name c :: ·) := by
  show disasm (rest.length + 1) (c :: rest) = _
  simp only [disasm]
  rw [if_neg (by omega), if_neg (by omega), if_neg (by omega), if_neg (by omega),
    if_neg (by omega)]

/-- The four-byte push always takes the direct-push branch. -/
theorem push4bytes_shape (n : Int) : push4bytes n = 4 :: u32leClamped n := by
  unfold push4bytes encodeDataPush u32leClamped
  norm_num

/-- Decoding the four little-endian clamped bytes of an in-range height
recovers it: heights below `2^31` have a clear top bit. -/
theorem decodeVmNum_u32le (h : Int) (h0 : 0 ≤ h) (hlt : h < 2147483648) :
    decodeVmNum (u32leClamped h) = h := by
  have hminmax : min (max h 0) 4294967295 = h := by
    rw [max_eq_left h0, min_eq_left (by omega)]
  have hcast : ((h.toNat : Nat) : Int) = h := Int.toNat_of_nonneg h0
  have hm : h.toNat < 2147483648 := by omega
  unfold u32leClamped
  rw [hminmax]
  simp only [decodeVmNum]
  rw [if_neg (by
    show ¬ ([h.toNat % 256, h.toNat / 256 % 256, h.toNat / 65536 % 256,
      h.toNat / 16777216 % 256].getLastD 0 / 128 % 2 = 1)
    have : [h.toNat % 256, h.toNat / 256 % 256, h.toNat / 65536 % 256,
      h.toNat / 16777216 % 256].getLastD 0 = h.toNat / 16777216 % 256 := rfl
    rw [this]
    omega)]
  show ((leNat [h.toNat % 256, h.toNat / 256 % 256, h.toNat / 65536 % 256,
    h.toNat / 16777216 % 256] : Nat) : Int) = h
  simp only [leNat]
  push_cast
  omega

/-- For every positive in-range value, the minimal push produces exactly one
ASM token that `opcodeToNum` converts back to the value: OP_1..OP_16 for
1..16, otherwise a direct push of the VM-number bytes. -/
theorem pushMinimal_token (v : Int) (h1 : 1 ≤ v) (hlt : v < 9223372036854775808) :
    ∃ tk : Tok,
      (∀ rest : List Nat,
        disasm (pushMinimal v ++ rest).length (pushMinimal v ++ rest) =
          (disasm rest.length rest).map (tk :: ·)) ∧
      opcodeToNum tk = some (some v) := by
  have hv0 : v ≠ 0 := by omega
  have hvneg : ¬ v < 0 := by omega
  have hm1 : 1 ≤ v.natAbs := by omega
  have hle : leNat (natLE v.natAbs v.natAbs) = v.natAbs := leNat_natLE _ _ le_rfl
  have hnonempty := natLE_ne_nil v.natAbs v.natAbs hm1 le_rfl
  have hmagpos : 1 ≤ (natLE v.natAbs v.natAbs).length := List.length_pos.mpr hnonempty
  have hmaglen : (natLE v.natAbs v.natAbs).length ≤ 8 := by
    apply natLE_length
    have h8 : (256 : Nat) ^ 8 = 18446744073709551616 := by norm_num
    omega
  by_cases h16 : v ≤ 16
  · -- OP_1..OP_16
    have hmag : natLE v.natAbs v.natAbs = [v.natAbs] := natLE_small _ hm1 (by omega)
    have htop : ¬ ((natLE v.natAbs v.natAbs).getLastD 0 / 128 % 2 = 1) := by
      rw [hmag, show ([v.natAbs].getLastD 0) = v.natAbs from rfl]
      omega
    have hbytes : vmNumberBytes v = [v.natAbs] := by
      unfold vmNumberBytes
      rw [if_neg hv0, if_neg htop, if_neg hvneg, hmag]
    have hpush : pushMinimal v = [0x50 + v.natAbs] := by
      unfold pushMinimal
      rw [hbytes]
      unfold encodeDataPush
      rw [if_neg (by simp), if_pos (by simp)]
      show (if v.natAbs ≠ 0 ∧ v.natAbs ≤ 16 then [0x50 + v.natAbs]
        else if v.natAbs = 0x81 then [0x4f] else [1, v.natAbs]) = [0x50 + v.natAbs]
      rw [if_pos ⟨by omega, by omega⟩]
    refine ⟨Tok.name (0x50 + v.natAbs), fun rest => ?_, ?_⟩
    · rw [hpush]
      show disasm ((0x50 + v.natAbs) :: rest).length ((0x50 + v.natAbs) :: rest) = _
      exact disasm_opn _ rest (by omega) (by omega)
    · show opcodeToNum (Tok.name (0x50 + v.natAbs)) = some (some v)
      simp only [opcodeToNum]
      rw [if_neg (by omega), if_pos ⟨by omega, by omega⟩]
      have hvv : ((0x50 + v.natAbs : Nat) : Int) - 0x50 = v := by omega
      rw [hvv]
  · -- direct push of the VM-number bytes
    have h17 : 17 ≤ v := by omega
    have hdec : decodeVmNum (vmNumberBytes v) = v := decodeVmNum_vmNumberBytes v h1
    have hlen8 : (vmNumberBytes v).length ≤ 8 := by
      by_cases htop : (natLE v.natAbs v.natAbs).getLastD 0 / 128 % 2 = 1
      · have hb : vmNumberBytes v = natLE v.natAbs v.natAbs ++ [0] := by
          unfold vmNumberBytes
          rw [if_neg hv0, if_pos htop, if_neg hvneg]
        obtain ⟨y, hy⟩ : ∃ y, (natLE v.natAbs v.natAbs).getLast? = some y := by
          cases hq : (natLE v.natAbs v.natAbs).getLast? with
          | none => exact absurd (List.getLast?_eq_none_iff.mp hq) hnonempty
          | some y => exact ⟨y, rfl⟩
        have hyd : (natLE v.natAbs v.natAbs).getLastD 0 = y := by
          rw [List.getLastD_eq_getLast?, hy]
          rfl
        have hy128 : 128 ≤ y := by omega
        have hge := leNat_ge_last (natLE v.natAbs v.natAbs) y hy
        rw [hle] at hge
        have hlen7 : (natLE v.natAbs v.natAbs).length ≤ 7 := by
          by_contra hc
          push_neg at hc
          have h8 : (natLE v.natAbs v.natAbs).length = 8 := by omega
          rw [h8] at hge
          have hbig : 128 * 256 ^ 7 ≤ v.natAbs :=
            le_trans (Nat.mul_le_mul_right _ hy128) hge
          have h2p : (128 : Nat) * 256 ^ 7 = 9223372036854775808 := by norm_num
          omega
        rw [hb]
        simp only [List.length_append, List.length_singleton]
        omega
      · have hb : vmNumberBytes v = natLE v.natAbs v.natAbs := by
          unfold vmNumberBytes
          rw [if_neg hv0, if_neg htop, if_neg hvneg]
        rw [hb]
        omega
    have hpush : pushMinimal v = (vmNumberBytes v).length :: vmNumberBytes v := by
      unfold pushMinimal
      by_cases htop : (natLE v.natAbs v.natAbs).getLastD 0 / 128 % 2 = 1
      · -- sign byte appended: at least two bytes
        have hb : vmNumberBytes v = natLE v.natAbs v.natAbs ++ [0] := by
          unfold vmNumberBytes
          rw [if_neg hv0, if_pos htop, if_neg hvneg]
        have hlen2 : 2 ≤ (vmNumberBytes v).length := by
          rw [hb]
          simp only [List.length_append, List.length_singleton]
          omega
        have hlen75 : (vmNumberBytes v).length ≤ 75 := by
          rw [hb]
          simp only [List.length_append, List.length_singleton]
          omega
        unfold encodeDataPush
        rw [if_neg (by omega), if_neg (by omega), if_pos hlen75]
      · -- bare magnitude
        have hb : vmNumberBytes v = natLE v.natAbs v.natAbs := by
          unfold vmNumberBytes
          rw [if_neg hv0, if_neg htop, if_neg hvneg]
        have hlen75 : (vmNumberBytes v).length ≤ 75 := by
          rw [hb]
          omega
        by_cases hone : (vmNumberBytes v).length = 1
        · -- a single magnitude byte: its value is v, so it is 17..127
          obtain ⟨bb, hbb⟩ := List.length_eq_one.mp (by rw [← hb]; exact hone :
            (natLE v.natAbs v.natAbs).length = 1)
          have hbval : bb = v.natAbs := by
            have := hle
            rw [hbb] at this
            simpa [leNat] using this
          have hbb17 : 17 ≤ bb := by omega
          have hbb129 : bb ≠ 129 := by
            intro hc
            apply htop
            rw [hbb, hc]
            norm_num
          unfold encodeDataPush
          rw [if_neg (by omega), if_pos hone]
          have hget : (vmNumberBytes v).getD 0 0 = bb := by
            rw [hb, hbb]
            rfl
          rw [hget, if_neg (by omega), if_neg hbb129]
          rw [hb, hbb]
          rfl
        · have hlen2 : 2 ≤ (vmNumberBytes v).length := by
            have : 1 ≤ (vmNumberBytes v).length := by
              rw [hb]
              omega
            omega
          unfold encodeDataPush
          rw [if_neg (by omega), if_neg (by omega), if_pos hlen75]
    refine ⟨Tok.data (vmNumberBytes v), fun rest => ?_, ?_⟩
    · rw [hpush]
      show disasm ((vmNumberBytes v).length :: (vmNumberBytes v ++ rest)).length
          ((vmNumberBytes v).length :: (vmNumberBytes v ++ rest)) = _
      apply disasm_push
      · -- nonempty
        by_cases htop : (natLE v.natAbs v.natAbs).getLastD 0 / 128 % 2 = 1
        · have hb : vmNumberBytes v = natLE v.natAbs v.natAbs ++ [0] := by
            unfold vmNumberBytes
            rw [if_neg hv0, if_pos htop, if_neg hvneg]
          rw [hb]
          simp only [List.length_append, List.length_singleton]
          omega
        · have hb : vmNumberBytes v = natLE v.natAbs v.natAbs := by
            unfold vmNumberBytes
            rw [if_neg hv0, if_neg htop, if_neg hvneg]
          rw [hb]
          omega
      · -- at most 75 bytes
        by_cases htop : (natLE v.natAbs v.natAbs).getLastD 0 / 128 % 2 = 1
        · have hb : vmNumberBytes v = natLE v.natAbs v.natAbs ++ [0] := by
            unfold vmNumberBytes
            rw [if_neg hv0, if_pos htop, if_neg hvneg]
          rw [hb]
          simp only [List.length_append, List.length_singleton]
          omega
        · have hb : vmNumberBytes v = natLE v.natAbs v.natAbs := by
            unfold vmNumberBytes
            rw [if_neg hv0, if_neg htop, if_neg hvneg]
          rw [hb]
          omega
      · rfl
    · show opcodeToNum (Tok.data (vmNumberBytes v)) = some (some v)
      simp only [opcodeToNum]
      rw [if_neg (not_lt.mpr hlen8), hdec]

/-- C6: encoding a contract state with `dMintScript` and decoding it through
`parseDmintScript` and the state-prologue parser of `parseContractTx`
recovers exactly the same height, contract reference, token reference, max
height, reward and target, for every in-range state (height below `2^31`,
36-byte references, positive 64-bit numeric fields). -/
theorem dmint_roundtrip (s : DmintState)
    (hh0 : 0 ≤ s.height) (hh1 : s.height < 2147483648)
    (hcref : s.contractRef.length = 36) (htref : s.tokenRef.length = 36)
    (hmh1 : 1 ≤ s.maxHeight) (hmh2 : s.maxHeight < 9223372036854775808)
    (hrw1 : 1 ≤ s.reward) (hrw2 : s.reward < 9223372036854775808)
    (htg1 : 1 ≤ s.target) (htg2 : s.target < 9223372036854775808) :
    parseStateScript (dMintScript s) s.contractRef = some s := by
  obtain ⟨tk1, hd1, hn1⟩ := pushMinimal_token s.maxHeight hmh1 hmh2
  obtain ⟨tk2, hd2, hn2⟩ := pushMinimal_token s.reward hrw1 hrw2
  obtain ⟨tk3, hd3, hn3⟩ := pushMinimal_token s.target htg1 htg2
  -- evaluate the disassembler over the prologue, innermost first
  have e1 : disasm (pushMinimal s.target).length (pushMinimal s.target) = some [tk3] := by
    have h := hd3 []
    rw [List.append_nil] at h
    rw [h]
    rfl
  have e2 : disasm (pushMinimal s.reward ++ pushMinimal s.target).length
      (pushMinimal s.reward ++ pushMinimal s.target) = some [tk2, tk3] := by
    rw [hd2 (pushMinimal s.target), e1]
    rfl
  have e3 : disasm (pushMinimal s.maxHeight ++ (pushMinimal s.reward ++ pushMinimal s.target)).length
      (pushMinimal s.maxHeight ++ (pushMinimal s.reward ++ pushMinimal s.target)) =
      some [tk1, tk2, tk3] := by
    rw [hd1 (pushMinimal s.reward ++ pushMinimal s.target), e2]
    rfl
  have e4 : disasm (0xd0 :: (s.tokenRef ++ (pushMinimal s.maxHeight ++
      (pushMinimal s.reward ++ pushMinimal s.target)))).length
      (0xd0 :: (s.tokenRef ++ (pushMinimal s.maxHeight ++
      (pushMinimal s.reward ++ pushMinimal s.target)))) =
      some [Tok.name 0xd0, Tok.data s.tokenRef, tk1, tk2, tk3] := by
    rw [disasm_ref 0xd0 s.tokenRef _ (Or.inl rfl) htref, e3]
    rfl
  have e5 : disasm (0xd8 :: (s.contractRef ++ (0xd0 :: (s.tokenRef ++ (pushMinimal s.maxHeight ++
      (pushMinimal s.reward ++ pushMinimal s.target)))))).length
      (0xd8 :: (s.contractRef ++ (0xd0 :: (s.tokenRef ++ (pushMinimal s.maxHeight ++
      (pushMinimal s.reward ++ pushMinimal s.target)))))) =
      some [Tok.name 0xd8, Tok.data s.contractRef, Tok.name 0xd0, Tok.data s.tokenRef,
        tk1, tk2, tk3] := by
    rw [disasm_ref 0xd8 s.contractRef _ (Or.inr rfl) hcref, e4]
    rfl
  have e6 : disasm (4 :: (u32leClamped s.height ++ (0xd8 :: (s.contractRef ++ (0xd0 ::
      (s.tokenRef ++ (pushMinimal s.maxHeight ++
      (pushMinimal s.reward ++ pushMinimal s.target)))))))).length
      (4 :: (u32leClamped s.height ++ (0xd8 :: (s.contractRef ++ (0xd0 ::
      (s.tokenRef ++ (pushMinimal s.maxHeight ++
      (pushMinimal s.reward ++ pushMinimal s.target)))))))) =
      some [Tok.data (u32leClamped s.height), Tok.name 0xd8, Tok.data s.contractRef,
        Tok.name 0xd0, Tok.data s.tokenRef, tk1, tk2, tk3] := by
    rw [disasm_push 4 (u32leClamped s.height) _ (by norm_num) (by norm_num)
      (by simp [u32leClamped]), e5]
    rfl
  have hheight : opcodeToNum (Tok.data (u32leClamped s.height)) = some (some s.height) := by
    simp only [opcodeToNum]
    rw [if_neg (by simp [u32leClamped]), decodeVmNum_u32le s.height hh0 hh1]
  have hscript : dMintScript s = (4 :: (u32leClamped s.height ++ (0xd8 :: (s.contractRef ++
      (0xd0 :: (s.tokenRef ++ (pushMinimal s.maxHeight ++
      (pushMinimal s.reward ++ pushMinimal s.target)))))))) ++ dmintTail := by
    simp [dMintScript, push4bytes_shape, List.append_assoc]
  have hparse : parseDmintScript ((4 :: (u32leClamped s.height ++ (0xd8 :: (s.contractRef ++
      (0xd0 :: (s.tokenRef ++ (pushMinimal s.maxHeight ++
      (pushMinimal s.reward ++ pushMinimal s.target)))))))) ++ dmintTail) =
      some (4 :: (u32leClamped s.height ++ (0xd8 :: (s.contractRef ++
      (0xd0 :: (s.tokenRef ++ (pushMinimal s.maxHeight ++
      (pushMinimal s.reward ++ pushMinimal s.target)))))))) := by
    unfold parseDmintScript
    rw [if_pos (List.isSuffixOf_iff_suffix.mpr (List.suffix_append _ _))]
    have hlen : ((4 :: (u32leClamped s.height ++ (0xd8 :: (s.contractRef ++
        (0xd0 :: (s.tokenRef ++ (pushMinimal s.maxHeight ++
        (pushMinimal s.reward ++ pushMinimal s.target)))))))) ++ dmintTail).length -
        dmintTail.length =
        (4 :: (u32leClamped s.height ++ (0xd8 :: (s.contractRef ++
        (0xd0 :: (s.tokenRef ++ (pushMinimal s.maxHeight ++
        (pushMinimal s.reward ++ pushMinimal s.target)))))))).length := by
      simp only [List.length_append, List.length_cons]
      omega
    rw [hlen, List.take_left]
  rw [hscript]
  unfold parseStateScript
  rw [hparse]
  rw [Option.some_bind]
  rw [e6, Option.some_bind]
  simp only [parsePrologueToks]
  rw [if_pos trivial]
  rw [show ((Tok.data (u32leClamped s.height) :: [tk1, tk2, tk3]).mapM opcodeToNum) =
    some [some s.height, some s.maxHeight, some s.reward, some s.target] from by
      simp [List.mapM, List.mapM.loop, hheight, hn1, hn2, hn3]]
  rfl

/-- C9 (code bug): `parseBurnScript` constrains the hex characters of the
last four reference bytes to decimal digits, so it fails to recognise the
burn template for references whose vout bytes use a hex letter, although
`burnScript` in the same file emits exactly that template for every
reference; references with digit-only vout bytes round-trip. -/
theorem parseBurnScript_digit_bug :
    parseBurnScript (burnScript (List.replicate 32 0 ++ [0, 0, 0, 10])) = none ∧
    (List.replicate 32 (0 : Nat) ++ [0, 0, 0, 10]).length = 36 ∧
    parseBurnScript (burnScript (List.replicate 32 0 ++ [0, 0, 0, 9])) =
      some (List.replicate 32 0 ++ [0, 0, 0, 9]) := by
  refine ⟨by decide, by decide, by decide⟩

/-- Witness for C6: the round trip applied to a concrete in-range state
(height 5, max height 10 exercising the OP_N push, reward 5000 and a 48-bit
target exercising the multi-byte push), hypotheses discharged concretely. -/
theorem dmint_roundtrip_witness :
    (0 : Int) ≤ 5 ∧ (5 : Int) < 2147483648 ∧
    (List.replicate 36 (1 : Nat)).length = 36 ∧ (List.replicate 36 (2 : Nat)).length = 36 ∧
    (1 : Int) ≤ 10 ∧ (10 : Int) < 9223372036854775808 ∧
    (1 : Int) ≤ 5000 ∧ (5000 : Int) < 9223372036854775808 ∧
    (1 : Int) ≤ 281474976710655 ∧ (281474976710655 : Int) < 9223372036854775808 ∧
    parseStateScript
      (dMintScript ⟨5, List.replicate 36 1, List.replicate 36 2, 10, 5000, 281474976710655⟩)
      (List.replicate 36 1) =
      some ⟨5, List.replicate 36 1, List.replicate 36 2, 10, 5000, 281474976710655⟩ :=
  ⟨by decide, by decide, by decide, by decide, by decide, by decide, by decide, by decide,
    by decide, by decide,
    dmint_roundtrip ⟨5, List.replicate 36 1, List.replicate 36 2, 10, 5000, 281474976710655⟩
      (by decide) (by decide) (by decide) (by decide) (by decide) (by decide) (by decide)
      (by decide) (by decide) (by decide)⟩

set_option maxRecDepth 8000 in
/-- Sanity check that the whole encode-parse pipeline also evaluates
concretely, independently of the universal round-trip theorem. -/
theorem dmint_roundtrip_eval :
    parseStateScript
      (dMintScript ⟨7, List.replicate 36 3, List.replicate 36 4, 21000000, 50000000, 65536⟩)
      (List.replicate 36 3) =
      some ⟨7, List.replicate 36 3, List.replicate 36 4, 21000000, 50000000, 65536⟩ := by
  decide

/-- C7 (modelled from the spec, the handler is absent from the provided
sources): the first and second consecutive mempool conflicts record the
reject and arm the recovery timer without touching the engine; the third
performs the full recovery — engine stopped, wallet unspent refreshed,
contract location refetched, resubscribed — and restarts the engine exactly
when mining was enabled. -/
theorem mempool_conflict_recovery (me : Bool) :
    (onMempoolConflict me freshRecovery).consecutiveConflicts = 1 ∧
    (onMempoolConflict me freshRecovery).rejected = 1 ∧
    (onMempoolConflict me freshRecovery).recoveryTimerArmed = true ∧
    (onMempoolConflict me freshRecovery).engineStopped = false ∧
    (onMempoolConflict me (onMempoolConflict me freshRecovery)).consecutiveConflicts = 2 ∧
    (onMempoolConflict me (onMempoolConflict me freshRecovery)).rejected = 2 ∧
    (onMempoolConflict me (onMempoolConflict me freshRecovery)).recoveryTimerArmed = true ∧
    (onMempoolConflict me (onMempoolConflict me freshRecovery)).engineStopped = false ∧
    (onMempoolConflict me (onMempoolConflict me
      (onMempoolConflict me freshRecovery))).engineStopped = true ∧
    (onMempoolConflict me (onMempoolConflict me
      (onMempoolConflict me freshRecovery))).walletRefreshed = true ∧
    (onMempoolConflict me (onMempoolConflict me
      (onMempoolConflict me freshRecovery))).locationRefetched = true ∧
    (onMempoolConflict me (onMempoolConflict me
      (onMempoolConflict me freshRecovery))).resubscribed = true ∧
    (onMempoolConflict me (onMempoolConflict me
      (onMempoolConflict me freshRecovery))).engineRestarted = me := by
  cases me <;> decide

/-- The coordinator invariant: never more than one broadcast in flight, and
the in-flight set is empty whenever the `ready` guard is set. -/
def CoordInv (s : Coord) : Prop :=
  s.inFlight.length ≤ 1 ∧ (s.ready = true → s.inFlight = [])

/-- Every coordinator step preserves the invariant. -/
theorem coordStep_inv (s : Coord) (ev : CoordEv) (hs : CoordInv s) :
    CoordInv (match ev with
      | CoordEv.found vs => foundStep s vs
      | CoordEv.result b => resultStep s b) := by
  obtain ⟨h1, h2⟩ := hs
  cases ev with
  | found vs =>
    simp only [foundStep, submitStep]
    by_cases hr : s.ready
    · rw [if_pos hr]
      have hfl : s.inFlight = [] := h2 hr
      cases hlast : (s.nonces ++ vs).getLast? with
      | none => exact ⟨h1, h2⟩
      | some n =>
        refine ⟨?_, ?_⟩
        · simp [hfl]
        · intro hcontra
          simp at hcontra
    · rw [if_neg hr]
      exact ⟨h1, fun hr2 => absurd hr2 hr⟩
  | result b =>
    simp only [resultStep]
    by_cases he : s.inFlight.isEmpty
    · rw [if_pos he]
      exact ⟨h1, h2⟩
    · rw [if_neg he]
      have htail : s.inFlight.tail = [] := by
        rw [← List.length_eq_zero, List.length_tail]
        omega
      cases b with
      | true =>
        rw [if_pos rfl]
        exact ⟨by simp [htail], fun _ => by simp [htail]⟩
      | false =>
        rw [if_neg (by simp)]
        by_cases hn : s.nonces.isEmpty
        · rw [if_pos hn]
          exact ⟨by simp [htail], fun _ => by simp [htail]⟩
        · rw [if_neg hn]
          simp only [submitStep]
          cases hlast : (⟨s.nonces, s.ready, s.inFlight.tail⟩ : Coord).nonces.getLast? with
          | none =>
            have hnil : s.nonces = [] := List.getLast?_eq_none_iff.mp hlast
            exact absurd (by simp [hnil] : s.nonces.isEmpty = true) hn
          | some n =>
            refine ⟨by simp [htail], ?_⟩
            intro hcontra
            simp at hcontra

/-- Counterexample for C8: three candidates arrive while a broadcast is in
flight; after the broadcast fails, the freshest candidate 3 is submitted but
candidate 2 is still retained in the queue, so more than the last-arrived
candidate survives. -/
theorem coord_retains_counterexample :
    (runCoord coordInit [CoordEv.found [1], CoordEv.found [2], CoordEv.found [3],
      CoordEv.result false]).inFlight = [3] ∧
    (runCoord coordInit [CoordEv.found [1], CoordEv.found [2], CoordEv.found [3],
      CoordEv.result false]).nonces = [2] ∧
    (runCoord coordInit [CoordEv.found [1], CoordEv.found [2], CoordEv.found [3],
      CoordEv.result false]).nonces ≠ [] := by
  refine ⟨by decide, by decide, by decide⟩

/-- C8 amended: submissions are strictly serialized — at most one broadcast
is in flight in every reachable state, guarded by `ready` — and each
submission attempt takes the most recently arrived queued candidate; but
candidates arriving while a broadcast is in flight are all queued (the queue
is discarded only on a successful broadcast), not reduced to the last one. -/
theorem coord_serialized (evs : List CoordEv) :
    CoordInv (runCoord coordInit evs) ∧
    (∀ (s : Coord) (n : Nat), s.inFlight ≠ [] → ¬ s.nonces.isEmpty →
      s.nonces.getLast? = some n → (resultStep s false).nonces = s.nonces.dropLast ∧
        n ∈ (resultStep s false).inFlight) := by
  constructor
  · have hrun : ∀ (l : List CoordEv) (s : Coord), CoordInv s → CoordInv (runCoord s l) := by
      intro l
      induction l with
      | nil => intro s hs; exact hs
      | cons e t ih =>
        intro s hs
        exact ih _ (coordStep_inv s e hs)
    refine hrun evs coordInit ⟨?_, fun _ => rfl⟩
    simp [coordInit]
  · intro s n hfl hne hlast
    simp only [resultStep]
    rw [if_neg (by simp [List.isEmpty_iff]; exact hfl), if_neg (by simp), if_neg hne]
    simp only [submitStep, hlast]
    exact ⟨by simp, by simp⟩

/-- Witness for C8: the serialization theorem applied to a concrete event
trace and a concrete in-flight state, hypotheses discharged concretely. -/
theorem coord_serialized_witness :
    CoordInv (runCoord coordInit [CoordEv.found [7], CoordEv.found [8], CoordEv.result true]) ∧
    ((⟨[4, 9], false, [5]⟩ : Coord).inFlight ≠ [] ∧
      ¬ (⟨[4, 9], false, [5]⟩ : Coord).nonces.isEmpty ∧
      (⟨[4, 9], false, [5]⟩ : Coord).nonces.getLast? = some 9 ∧
      (resultStep ⟨[4, 9], false, [5]⟩ false).nonces = [4] ∧
      9 ∈ (resultStep ⟨[4, 9], false, [5]⟩ false).inFlight) :=
  ⟨(coord_serialized [CoordEv.found [7], CoordEv.found [8], CoordEv.result true]).1,
    by decide, by decide, by decide,
    ((coord_serialized []).2 ⟨[4, 9], false, [5]⟩ 9 (by decide) (by decide) (by decide)).1,
    ((coord_serialized []).2 ⟨[4, 9], false, [5]⟩ 9 (by decide) (by decide) (by decide)).2⟩

/-- C10: after a successful claim broadcast the wallet snapshot is replaced
by exactly one entry — the last output of the broadcast transaction — the
balance becomes that output's value, and the update is independent of the
previously tracked UTXOs (they are all dropped). -/
theorem claimTokensSuccess_snapshot (prev prev2 : List WUtxo) (txid : String)
    (outputs : List Int) (hne : outputs ≠ []) :
    claimTokensSuccess prev txid outputs =
      ([⟨txid, outputs.length - 1, outputs.getLast hne⟩], outputs.getLast hne) ∧
    claimTokensSuccess prev txid outputs = claimTokensSuccess prev2 txid outputs ∧
    (claimTokensSuccess prev txid outputs).1.length = 1 := by
  have hlt : outputs.length - 1 < outputs.length := by
    have : outputs.length ≠ 0 := by
      intro hz
      exact hne (List.length_eq_zero.mp hz)
    omega
  have hlast : outputs.getD (outputs.length - 1) 0 = outputs.getLast hne := by
    rw [List.getD_eq_getElem _ _ hlt, List.getLast_eq_getElem]
  refine ⟨?_, rfl, rfl⟩
  simp only [claimTokensSuccess]
  rw [hlast]
  simp

/-- Witness for C10: the snapshot update applied to a concrete previous
snapshot and a three-output transaction. -/
theorem claimTokensSuccess_snapshot_witness :
    (([10, 20, 30] : List Int) ≠ []) ∧
    claimTokensSuccess [⟨"old", 0, 7⟩] "txid1" [10, 20, 30] = ([⟨"txid1", 2, 30⟩], 30) :=
  ⟨by decide,
    (claimTokensSuccess_snapshot [⟨"old", 0, 7⟩] [] "txid1" [10, 20, 30] (by decide)).1⟩

end GlyphMiner
